import Mathlib

/-!
Verification of the mini_os kernel core against its specification.

The Rust sources are shallowly embedded: machine integers (`usize`, `u64`)
become `Nat` with explicit `% 2^64` where wrapping matters, fallible
operations return `Option` or `Except`, and the stateful allocators become
explicit state-passing functions.
-/

set_option maxHeartbeats 1000000

namespace MiniOS

/-- Width bound of `usize` on the x86-64 target: `2^64`. -/
def USIZE : Nat := 2 ^ 64

/-- `align_up` from `src/allocator.rs`:
`(addr + align - 1) & !(align - 1)` on 64-bit `usize` values.
On a 64-bit word `!x` is `(2^64 - 1) - x` and the sum wraps modulo `2^64`. -/
def align_up (addr align : Nat) : Nat :=
  ((addr + align - 1) % USIZE) &&& ((USIZE - 1) - (align - 1))

-- Memory map model (types from `bootloader::bootinfo`, consumed by src/memory.rs)

/-- Region type tags of `bootloader::bootinfo::MemoryRegionType`; the kernel
only distinguishes `Usable` from everything else. -/
inductive MemoryRegionType where
  | Usable
  | InUse
  | Reserved
  | Kernel
  | Bootloader
  deriving DecidableEq

/-- `bootloader::bootinfo::FrameRange`: a region is stored as a half-open
range of 4096-byte frame numbers. -/
structure FrameRange where
  start_frame_number : Nat
  end_frame_number : Nat
  deriving DecidableEq

/-- `FrameRange::start_addr`: the byte address of the first frame. -/
def FrameRange.start_addr (r : FrameRange) : Nat := r.start_frame_number * 4096

/-- `FrameRange::end_addr`: the byte address one past the last frame. -/
def FrameRange.end_addr (r : FrameRange) : Nat := r.end_frame_number * 4096

/-- `bootloader::bootinfo::MemoryRegion`. -/
structure MemoryRegion where
  range : FrameRange
  region_type : MemoryRegionType
  deriving DecidableEq

/-- The boot-supplied memory map: an ordered collection of regions. -/
abbrev MemoryMap := List MemoryRegion

/-- Rust `(s..e).step_by(step)`: the values `s, s + step, ...` strictly
below `e`, in order. -/
def rangeStepBy (s e step : Nat) : List Nat :=
  (List.range ((e - s + (step - 1)) / step)).map (fun k => s + step * k)

/-- `PhysFrame::containing_address` (x86_64 crate): align the address down to
the base of its 4096-byte frame; a frame is identified by its base address. -/
def containing_address (addr : Nat) : Nat := addr / 4096 * 4096

/-- The frames produced from a single region by the iterator chain of
`BootInfoFrameAllocator::usable_frames`. -/
def regionFrames (r : MemoryRegion) : List Nat :=
  (rangeStepBy r.range.start_addr r.range.end_addr 4096).map containing_address

/-- `BootInfoFrameAllocator::usable_frames` (src/memory.rs): filter the map to
`Usable` regions, cut each into 4096-byte strides starting at `start_addr`,
and take the frame containing each stride address. -/
def usable_frames (m : MemoryMap) : List Nat :=
  (m.filter (fun r => r.region_type = MemoryRegionType.Usable)).flatMap regionFrames

/-- `BootInfoFrameAllocator` (src/memory.rs): the memory map plus the index of
the next frame to hand out. -/
structure BootInfoFrameAllocator where
  memory_map : MemoryMap
  next : Nat

/-- `BootInfoFrameAllocator::init`. -/
def BootInfoFrameAllocator.init (m : MemoryMap) : BootInfoFrameAllocator :=
  { memory_map := m, next := 0 }

/-- `allocate_frame` (src/memory.rs): return the `next`-th usable frame and
increment `next` unconditionally, even when the lookup fails. -/
def allocate_frame (a : BootInfoFrameAllocator) :
    BootInfoFrameAllocator × Option Nat :=
  ({ a with next := a.next + 1 }, (usable_frames a.memory_map)[a.next]?)

/-- The allocator state after `n` calls to `allocate_frame`. -/
def allocN (a : BootInfoFrameAllocator) : Nat → BootInfoFrameAllocator
  | 0 => a
  | n + 1 => (allocate_frame (allocN a n)).1

/-- Two regions do not overlap (as frame-number intervals). -/
def RegionsDisjoint (r₁ r₂ : MemoryRegion) : Prop :=
  r₁.range.end_frame_number ≤ r₂.range.start_frame_number ∨
  r₂.range.end_frame_number ≤ r₁.range.start_frame_number

instance (r₁ r₂ : MemoryRegion) : Decidable (RegionsDisjoint r₁ r₂) := by
  unfold RegionsDisjoint
  infer_instance

-- Basic facts about the frame stream

theorem regionFrames_eq (r : MemoryRegion) :
    regionFrames r =
      (List.range (r.range.end_frame_number - r.range.start_frame_number)).map
        (fun k => (r.range.start_frame_number + k) * 4096) := by
  unfold regionFrames rangeStepBy FrameRange.start_addr FrameRange.end_addr
  have hcount : (r.range.end_frame_number * 4096 - r.range.start_frame_number * 4096
      + (4096 - 1)) / 4096 = r.range.end_frame_number - r.range.start_frame_number := by
    omega
  rw [hcount, List.map_map]
  apply List.map_congr_left
  intro k _
  simp only [Function.comp, containing_address]
  omega

theorem allocN_next (a : BootInfoFrameAllocator) (n : Nat) :
    (allocN a n).next = a.next + n ∧ (allocN a n).memory_map = a.memory_map := by
  induction n with
  | zero => exact ⟨rfl, rfl⟩
  | succ n ih =>
    simp only [allocN, allocate_frame]
    exact ⟨by rw [ih.1]; omega, ih.2⟩

-- Bitmask arithmetic for align_up

theorem and_two_pow_sub (a k : Nat) (ha : a < 2 ^ 64) (hk : k ≤ 64) :
    a &&& (2 ^ 64 - 2 ^ k) = 2 ^ k * (a / 2 ^ k) := by
  apply Nat.eq_of_testBit_eq
  intro i
  have h2k : (1:Nat) ≤ 2 ^ k := Nat.one_le_two_pow
  have h64 : (2:Nat) ^ k ≤ 2 ^ 64 := Nat.pow_le_pow_right (by norm_num) hk
  have hlt : 2 ^ k - 1 < 2 ^ 64 := by omega
  have hsub : (2:Nat) ^ 64 - 2 ^ k = 2 ^ 64 - ((2 ^ k - 1) + 1) := by omega
  rw [Nat.testBit_and, hsub, Nat.testBit_two_pow_sub_succ hlt,
    Nat.testBit_two_pow_sub_one, Nat.testBit_mul_pow_two]
  have hdiv : (a / 2 ^ k).testBit (i - k) = a.testBit (k + (i - k)) := by
    rw [← Nat.shiftRight_eq_div_pow, Nat.testBit_shiftRight]
  rw [hdiv]
  by_cases hik : k ≤ i
  · by_cases hi64 : i < 64
    · have hki : k + (i - k) = i := by omega
      have hnik : ¬ i < k := by omega
      simp [hik, hi64, hki, hnik, ge_iff_le, Bool.and_comm]
    · have hfa : a.testBit i = false :=
        Nat.testBit_lt_two_pow
          (Nat.lt_of_lt_of_le ha (Nat.pow_le_pow_right (by norm_num) (by omega)))
      have hki : k + (i - k) = i := by omega
      simp [hfa, hi64, hki]
  · have hi : i < k := by omega
    simp [hi, hik, ge_iff_le]

/-- Rounding up to a multiple: `addr ≤ P * ((addr + P - 1) / P)`. -/
theorem le_roundup (addr P : Nat) (hP : 0 < P) :
    addr ≤ P * ((addr + P - 1) / P) := by
  have hdm := Nat.div_add_mod (addr + P - 1) P
  have hr : (addr + P - 1) % P < P := Nat.mod_lt _ hP
  generalize hss : P * ((addr + P - 1) / P) = s at *
  omega

/-- The rounded value does not exceed `addr + P - 1`. -/
theorem roundup_le (addr P : Nat) (_hP : 0 < P) :
    P * ((addr + P - 1) / P) ≤ addr + P - 1 := by
  have hdm := Nat.div_add_mod (addr + P - 1) P
  generalize hss : P * ((addr + P - 1) / P) = s at *
  omega

/-- Minimality: the round-up is below every multiple of `P` at or above `addr`. -/
theorem roundup_min (addr P m : Nat) (hP : 0 < P) (hdvd : P ∣ m)
    (hm : addr ≤ m) : P * ((addr + P - 1) / P) ≤ m := by
  obtain ⟨t, rfl⟩ := hdvd
  have h1 : addr + P - 1 ≤ P * t + (P - 1) := by
    have := Nat.le_refl (P * t)
    omega
  have h2 : (addr + P - 1) / P ≤ (P * t + (P - 1)) / P :=
    Nat.div_le_div_right h1
  have h3 : (P * t + (P - 1)) / P = t + (P - 1) / P := Nat.mul_add_div hP t (P - 1)
  have h4 : (P - 1) / P = 0 := Nat.div_eq_of_lt (by omega)
  have h5 : (addr + P - 1) / P ≤ t := by omega
  calc P * ((addr + P - 1) / P) ≤ P * t := Nat.mul_le_mul_left P h5
    _ = P * t := rfl

/-- Fixed point: a multiple of `P` rounds up to itself. -/
theorem roundup_fixed (addr P : Nat) (hP : 0 < P) (hdvd : P ∣ addr) :
    P * ((addr + P - 1) / P) = addr := by
  obtain ⟨t, rfl⟩ := hdvd
  have h3 : (P * t + (P - 1)) / P = t + (P - 1) / P := Nat.mul_add_div hP t (P - 1)
  have h4 : (P - 1) / P = 0 := Nat.div_eq_of_lt (by omega)
  have h5 : P * t + P - 1 = P * t + (P - 1) := by omega
  rw [h5, h3, h4, Nat.add_zero]

/-- `align_up` computes the arithmetic round-up when the addition
does not overflow. -/
theorem align_up_eq (addr k : Nat) (hk : k ≤ 64)
    (hno : addr + 2 ^ k - 1 < USIZE) :
    align_up addr (2 ^ k) = 2 ^ k * ((addr + 2 ^ k - 1) / 2 ^ k) := by
  have h2k : (1:Nat) ≤ 2 ^ k := Nat.one_le_two_pow
  have h64 : (2:Nat) ^ k ≤ 2 ^ 64 := Nat.pow_le_pow_right (by norm_num) hk
  unfold align_up USIZE
  unfold USIZE at hno
  have hmod : (addr + 2 ^ k - 1) % 2 ^ 64 = addr + 2 ^ k - 1 :=
    Nat.mod_eq_of_lt (by omega)
  have hmask : (2 ^ 64 - 1) - (2 ^ k - 1) = 2 ^ 64 - 2 ^ k := by omega
  rw [hmod, hmask, and_two_pow_sub _ _ (by omega) hk]

/-- C10: for every address `addr` and power-of-two alignment `align` such that
`addr + align - 1` does not overflow `usize`, `align_up addr align` is the
smallest multiple of `align` that is `≥ addr`; in particular `align_up` is
idempotent and returns `addr` unchanged whenever `addr` is already a multiple
of `align`. -/
theorem align_up_correct (addr align : Nat)
    (hpow : ∃ k, k < 64 ∧ align = 2 ^ k)
    (hno : addr + align - 1 < USIZE) :
    align ∣ align_up addr align ∧
    addr ≤ align_up addr align ∧
    (∀ m, align ∣ m → addr ≤ m → align_up addr align ≤ m) ∧
    (align ∣ addr → align_up addr align = addr) ∧
    align_up (align_up addr align) align = align_up addr align := by
  obtain ⟨k, hk64, rfl⟩ := hpow
  have hk : k ≤ 64 := Nat.le_of_lt hk64
  have hP : (0:Nat) < 2 ^ k := Nat.two_pow_pos k
  have heq := align_up_eq addr k hk hno
  refine ⟨?_, ?_, ?_, ?_, ?_⟩
  · rw [heq]; exact Dvd.intro _ rfl
  · rw [heq]; exact le_roundup addr _ hP
  · intro m hdvd hm
    rw [heq]; exact roundup_min addr _ m hP hdvd hm
  · intro hdvd
    rw [heq]; exact roundup_fixed addr _ hP hdvd
  · have hvdvd : (2:Nat) ^ k ∣ align_up addr (2 ^ k) := by
      rw [heq]; exact Dvd.intro _ rfl
    have hvle : align_up addr (2 ^ k) ≤ addr + 2 ^ k - 1 := by
      rw [heq]; exact roundup_le addr _ hP
    have hvlt : align_up addr (2 ^ k) < 2 ^ 64 := by
      unfold USIZE at hno; omega
    have hdvd64 : (2:Nat) ^ k ∣ 2 ^ 64 := pow_dvd_pow 2 hk
    have hvle2 : align_up addr (2 ^ k) ≤ 2 ^ 64 - 2 ^ k := by
      obtain ⟨a, ha⟩ := hvdvd
      obtain ⟨b, hb⟩ := hdvd64
      have hab : a < b := by
        apply Nat.lt_of_mul_lt_mul_left (a := 2 ^ k)
        rw [← ha, ← hb]; exact hvlt
      have h1 : a ≤ b - 1 := by omega
      have h2 : (2:Nat) ^ k * a ≤ 2 ^ k * (b - 1) := Nat.mul_le_mul_left _ h1
      have h3 : (2:Nat) ^ k * (b - 1) = 2 ^ k * b - 2 ^ k := by
        rw [Nat.mul_sub, Nat.mul_one]
      rw [ha, hb]
      omega
    have h64' : (2:Nat) ^ k ≤ 2 ^ 64 := Nat.pow_le_pow_right (by norm_num) hk
    have h2k : (1:Nat) ≤ 2 ^ k := Nat.one_le_two_pow
    have hno2 : align_up addr (2 ^ k) + 2 ^ k - 1 < USIZE := by
      unfold USIZE
      omega
    rw [align_up_eq _ k hk hno2]
    exact roundup_fixed _ _ hP hvdvd

/-- Witness for C10 at `addr = 10`, `align = 8`. -/
theorem align_up_correct_witness :
    (∃ k, k < 64 ∧ (8:Nat) = 2 ^ k) ∧ ((10:Nat) + 8 - 1 < USIZE) ∧
    (8 ∣ align_up 10 8 ∧ 10 ≤ align_up 10 8 ∧
      (∀ m, 8 ∣ m → 10 ≤ m → align_up 10 8 ≤ m) ∧
      (8 ∣ 10 → align_up 10 8 = 10) ∧
      align_up (align_up 10 8) 8 = align_up 10 8) :=
  ⟨⟨3, by norm_num⟩, by norm_num [USIZE],
    align_up_correct 10 8 ⟨3, by norm_num⟩ (by norm_num [USIZE])⟩

-- Frame stream facts

theorem mem_regionFrames_bounds (r : MemoryRegion) (a : Nat)
    (ha : a ∈ regionFrames r) :
    r.range.start_addr ≤ a ∧ a + 4096 ≤ r.range.end_addr := by
  rw [regionFrames_eq] at ha
  simp only [List.mem_map, List.mem_range] at ha
  obtain ⟨k, hk, rfl⟩ := ha
  unfold FrameRange.start_addr FrameRange.end_addr
  omega

theorem regionFrames_nodup (r : MemoryRegion) : (regionFrames r).Nodup := by
  rw [regionFrames_eq]
  apply List.Nodup.map
  · intro x y hxy
    have h : (r.range.start_frame_number + x) * 4096
        = (r.range.start_frame_number + y) * 4096 := hxy
    omega
  · exact List.nodup_range _

theorem usable_frames_nodup (m : MemoryMap)
    (hdisj : (m.filter
        (fun r => r.region_type = MemoryRegionType.Usable)).Pairwise
      RegionsDisjoint) :
    (usable_frames m).Nodup := by
  unfold usable_frames
  generalize (m.filter (fun r => r.region_type = MemoryRegionType.Usable)) = L at hdisj
  induction L with
  | nil => simp
  | cons r L ih =>
    rw [List.flatMap_cons]
    rcases hdisj with _ | ⟨hhead, htail⟩
    apply List.Nodup.append (regionFrames_nodup r) (ih htail)
    intro a ha hb
    simp only [List.mem_flatMap] at hb
    obtain ⟨s, hs, has⟩ := hb
    have hb1 := mem_regionFrames_bounds r a ha
    have hb2 := mem_regionFrames_bounds s a has
    have hd := hhead s hs
    unfold RegionsDisjoint at hd
    unfold FrameRange.start_addr FrameRange.end_addr at hb1 hb2
    omega

/-- C2: the frame allocator yields frames only from regions tagged `Usable`;
each usable region `[start_addr, end_addr)` contributes exactly
`(end_addr - start_addr) / 4096` frames, and every produced frame lies
entirely inside its region. -/
theorem usable_frames_per_region (m : MemoryMap) :
    (∀ a ∈ usable_frames m,
      ∃ r ∈ m, r.region_type = MemoryRegionType.Usable ∧ a ∈ regionFrames r) ∧
    (∀ r ∈ m, r.region_type = MemoryRegionType.Usable →
      (regionFrames r).length = (r.range.end_addr - r.range.start_addr) / 4096 ∧
      ∀ a ∈ regionFrames r,
        r.range.start_addr ≤ a ∧ a + 4096 ≤ r.range.end_addr) := by
  constructor
  · intro a ha
    unfold usable_frames at ha
    rw [List.mem_flatMap] at ha
    obtain ⟨r, hr, har⟩ := ha
    rw [List.mem_filter] at hr
    exact ⟨r, hr.1, by simpa using hr.2, har⟩
  · intro r _ _
    constructor
    · rw [regionFrames_eq]
      simp only [List.length_map, List.length_range]
      unfold FrameRange.start_addr FrameRange.end_addr
      omega
    · exact fun a ha => mem_regionFrames_bounds r a ha

/-- Witness for C2 on a concrete memory map: one usable region of 2 frames
starting at frame 1, alongside a reserved region. -/
theorem usable_frames_per_region_witness :
    (regionFrames ⟨⟨1, 3⟩, MemoryRegionType.Usable⟩).length =
      ((3 * 4096 : Nat) - 1 * 4096) / 4096 ∧
    ∀ a ∈ regionFrames ⟨⟨1, 3⟩, MemoryRegionType.Usable⟩,
      (⟨⟨1, 3⟩, MemoryRegionType.Usable⟩ : MemoryRegion).range.start_addr ≤ a ∧
      a + 4096 ≤ (⟨⟨1, 3⟩, MemoryRegionType.Usable⟩ : MemoryRegion).range.end_addr :=
  (usable_frames_per_region
      [⟨⟨1, 3⟩, MemoryRegionType.Usable⟩, ⟨⟨3, 5⟩, MemoryRegionType.Reserved⟩]).2
    ⟨⟨1, 3⟩, MemoryRegionType.Usable⟩ (by simp) rfl

/-- C1: on a boot memory inventory whose usable regions do not overlap, with
`M` the number of usable frames, the first `M` calls to `allocate_frame` all
succeed and return exactly the `M` pairwise-distinct usable frame base
addresses, and the `(M+1)`-th call returns `none`. -/
theorem allocate_frame_first_M (m : MemoryMap)
    (hdisj : (m.filter
        (fun r => r.region_type = MemoryRegionType.Usable)).Pairwise
      RegionsDisjoint) :
    ((List.range (usable_frames m).length).map
        (fun k => (allocate_frame (allocN (BootInfoFrameAllocator.init m) k)).2)
      = (usable_frames m).map some) ∧
    (usable_frames m).Nodup ∧
    (allocate_frame
        (allocN (BootInfoFrameAllocator.init m) (usable_frames m).length)).2
      = none := by
  have hstate : ∀ k, (allocN (BootInfoFrameAllocator.init m) k).next = k ∧
      (allocN (BootInfoFrameAllocator.init m) k).memory_map = m := by
    intro k
    have := allocN_next (BootInfoFrameAllocator.init m) k
    simpa [BootInfoFrameAllocator.init] using this
  have hres : ∀ k, (allocate_frame (allocN (BootInfoFrameAllocator.init m) k)).2
      = (usable_frames m)[k]? := by
    intro k
    unfold allocate_frame
    rw [(hstate k).1, (hstate k).2]
  refine ⟨?_, usable_frames_nodup m hdisj, ?_⟩
  · apply List.ext_getElem
    · simp
    · intro i h1 h2
      simp only [List.getElem_map, List.getElem_range]
      rw [hres i]
      rw [List.getElem?_eq_getElem (by simpa using h1)]
  · rw [hres]
    exact List.getElem?_eq_none (Nat.le_refl _)

/-- A concrete example inventory: two disjoint usable regions (3 usable
frames total) around a reserved region. -/
def exampleMap : MemoryMap :=
  [⟨⟨0, 2⟩, MemoryRegionType.Usable⟩, ⟨⟨2, 3⟩, MemoryRegionType.Reserved⟩,
    ⟨⟨5, 6⟩, MemoryRegionType.Usable⟩]

/-- Witness for C1 on `exampleMap`. -/
theorem allocate_frame_first_M_witness :
    ((exampleMap.filter
        (fun r => r.region_type = MemoryRegionType.Usable)).Pairwise
      RegionsDisjoint) ∧
    (usable_frames exampleMap).Nodup ∧
    (allocate_frame
        (allocN (BootInfoFrameAllocator.init exampleMap)
          (usable_frames exampleMap).length)).2 = none :=
  ⟨by decide, ((allocate_frame_first_M exampleMap (by decide)).2.1),
    ((allocate_frame_first_M exampleMap (by decide)).2.2)⟩

/-- C8: `allocate_frame` advances the cursor by exactly one on every call
(successful or not), and exhaustion is permanent: once a call returns `none`,
every subsequent call returns `none`. -/
theorem allocate_frame_cursor_permanent (a : BootInfoFrameAllocator) :
    (allocate_frame a).1.next = a.next + 1 ∧
    ((allocate_frame a).2 = none →
      ∀ n, (allocate_frame (allocN (allocate_frame a).1 n)).2 = none) := by
  constructor
  · rfl
  · intro hnone n
    unfold allocate_frame at hnone ⊢
    simp only at hnone ⊢
    have hlen : (usable_frames a.memory_map).length ≤ a.next := by
      by_contra h
      rw [List.getElem?_eq_getElem (by omega)] at hnone
      exact Option.noConfusion hnone
    have hst := allocN_next ({ a with next := a.next + 1 }) n
    rw [hst.1, hst.2]
    exact List.getElem?_eq_none (by simp; omega)

/-- Witness for C8: an allocator over an empty memory map fails immediately,
and keeps failing. -/
theorem allocate_frame_cursor_permanent_witness :
    (allocate_frame (BootInfoFrameAllocator.init [])).2 = none ∧
    (allocate_frame
        (allocN (allocate_frame (BootInfoFrameAllocator.init [])).1 2)).2
      = none :=
  ⟨rfl, (allocate_frame_cursor_permanent (BootInfoFrameAllocator.init [])).2 rfl 2⟩

-- Heap initialization (src/allocator.rs)

/-- `HEAP_START` (src/allocator.rs): `0x_4444_4444_0000`. -/
def HEAP_START : Nat := 0x444444440000

/-- `HEAP_SIZE` (src/allocator.rs): 100 KiB. -/
def HEAP_SIZE : Nat := 100 * 1024

/-- The page-table flag set used by the kernel when mapping heap pages. -/
structure PageTableFlags where
  present : Bool
  writable : Bool
  deriving DecidableEq

/-- One established page-table mapping: virtual page base to physical frame
base, with flags. -/
structure Mapping where
  page : Nat
  frame : Nat
  flags : PageTableFlags
  deriving DecidableEq

/-- `x86_64::structures::paging::mapper::MapToError`: the error the mapping
loop of `init_heap` can produce in this model. -/
inductive MapToError where
  | FrameAllocationFailed
  deriving DecidableEq

/-- `Page::containing_address` on virtual addresses. -/
def page_containing_address (addr : Nat) : Nat := addr / 4096 * 4096

/-- `Page::range_inclusive`: the pages from `p` up to and including `q`
(`p`, `q` are 4096-aligned page base addresses). -/
def page_range_inclusive (p q : Nat) : List Nat :=
  if p ≤ q then (List.range ((q - p) / 4096 + 1)).map (fun k => p + 4096 * k)
  else []

/-- The page range computed inside `init_heap`: from the page containing
`HEAP_START` to the page containing `HEAP_START + HEAP_SIZE - 1`. -/
def heapPages : List Nat :=
  page_range_inclusive (page_containing_address HEAP_START)
    (page_containing_address (HEAP_START + HEAP_SIZE - 1))

/-- Kernel state threaded through `init_heap`: established mappings, the
frame allocator, and the heap-allocator initialization record (`none` until
`ALLOCATOR.lock().init(..)` has run). -/
structure KernelState where
  mapper : List Mapping
  frames : BootInfoFrameAllocator
  heapAlloc : Option (Nat × Nat)

/-- The page-mapping loop of `init_heap`: allocate a frame for each page and
map the page to it present+writable; on frame exhaustion propagate
`MapToError::FrameAllocationFailed` immediately. -/
def mapPagesLoop : KernelState → List Nat → KernelState × Except MapToError Unit
  | st, [] => (st, Except.ok ())
  | st, p :: rest =>
    match (allocate_frame st.frames).2 with
    | none =>
        ({ st with frames := (allocate_frame st.frames).1 },
          Except.error MapToError.FrameAllocationFailed)
    | some f =>
        mapPagesLoop
          { st with
            frames := (allocate_frame st.frames).1
            mapper := st.mapper ++ [⟨p, f, ⟨true, true⟩⟩] } rest

/-- `init_heap` (src/allocator.rs): map every page of the heap window, then
initialize the heap allocator over `[HEAP_START, HEAP_START + HEAP_SIZE)`. -/
def init_heap (st : KernelState) : KernelState × Except MapToError Unit :=
  match mapPagesLoop st heapPages with
  | (st1, Except.ok _) =>
      ({ st1 with heapAlloc := some (HEAP_START, HEAP_SIZE) }, Except.ok ())
  | (st1, Except.error e) => (st1, Except.error e)

theorem heapPages_eq :
    heapPages = (List.range 25).map (fun k => HEAP_START + 4096 * k) := by
  unfold heapPages page_range_inclusive page_containing_address HEAP_START HEAP_SIZE
  norm_num

theorem page_containing_mem_heapPages (a : Nat)
    (h1 : HEAP_START ≤ a) (h2 : a < HEAP_START + HEAP_SIZE) :
    page_containing_address a ∈ heapPages := by
  rw [heapPages_eq]
  simp only [List.mem_map, List.mem_range]
  refine ⟨(a - HEAP_START) / 4096, ?_, ?_⟩
  · unfold HEAP_START HEAP_SIZE at *
    omega
  · unfold page_containing_address HEAP_START HEAP_SIZE at *
    omega

theorem mapPagesLoop_ok (ps : List Nat) : ∀ st : KernelState,
    st.frames.next + ps.length ≤ (usable_frames st.frames.memory_map).length →
    ∃ st1, mapPagesLoop st ps = (st1, Except.ok ()) ∧
      st1.heapAlloc = st.heapAlloc ∧
      (∀ x ∈ st.mapper, x ∈ st1.mapper) ∧
      (∀ p ∈ ps, ∃ f, (⟨p, f, ⟨true, true⟩⟩ : Mapping) ∈ st1.mapper) := by
  induction ps with
  | nil =>
    intro st _
    exact ⟨st, rfl, rfl, fun x hx => hx, by simp⟩
  | cons p rest ih =>
    intro st h
    have hn : st.frames.next < (usable_frames st.frames.memory_map).length := by
      simp only [List.length_cons] at h
      omega
    have hsome : (allocate_frame st.frames).2
        = some ((usable_frames st.frames.memory_map)[st.frames.next]) := by
      unfold allocate_frame
      exact List.getElem?_eq_getElem hn
    obtain ⟨st1, h1, h2, h3, h4⟩ := ih
      { st with
        frames := (allocate_frame st.frames).1
        mapper := st.mapper ++
          [⟨p, (usable_frames st.frames.memory_map)[st.frames.next],
            ⟨true, true⟩⟩] }
      (by
        simp only [allocate_frame, List.length_cons] at h ⊢
        omega)
    refine ⟨st1, ?_, h2, ?_, ?_⟩
    · unfold mapPagesLoop
      rw [hsome]
      exact h1
    · intro x hx
      exact h3 x (List.mem_append_left _ hx)
    · intro q hq
      rcases List.mem_cons.mp hq with rfl | hq2
      · exact ⟨_, h3 _ (List.mem_append_right _ (List.mem_singleton_self _))⟩
      · exact h4 q hq2

theorem mapPagesLoop_err (ps : List Nat) : ∀ st : KernelState,
    ps ≠ [] →
    (usable_frames st.frames.memory_map).length < st.frames.next + ps.length →
    ∃ st1, mapPagesLoop st ps
        = (st1, Except.error MapToError.FrameAllocationFailed) ∧
      st1.heapAlloc = st.heapAlloc := by
  induction ps with
  | nil =>
    intro st hne _
    exact absurd rfl hne
  | cons p rest ih =>
    intro st _ h
    by_cases hn : st.frames.next < (usable_frames st.frames.memory_map).length
    · have hrne : rest ≠ [] := by
        intro he
        subst he
        simp only [List.length_cons, List.length_nil] at h
        omega
      have hsome : (allocate_frame st.frames).2
          = some ((usable_frames st.frames.memory_map)[st.frames.next]) := by
        unfold allocate_frame
        exact List.getElem?_eq_getElem hn
      obtain ⟨st1, h1, h2⟩ := ih
        { st with
          frames := (allocate_frame st.frames).1
          mapper := st.mapper ++
            [⟨p, (usable_frames st.frames.memory_map)[st.frames.next],
              ⟨true, true⟩⟩] }
        hrne
        (by
          simp only [allocate_frame, List.length_cons] at h ⊢
          omega)
      refine ⟨st1, ?_, h2⟩
      unfold mapPagesLoop
      rw [hsome]
      exact h1
    · have hnone : (allocate_frame st.frames).2 = none := by
        unfold allocate_frame
        exact List.getElem?_eq_none (by omega)
      refine ⟨{ st with frames := (allocate_frame st.frames).1 }, ?_, rfl⟩
      unfold mapPagesLoop
      rw [hnone]

/-- C3: `init_heap` maps every page of `[HEAP_START, HEAP_START + HEAP_SIZE)`
present+writable before initializing the heap allocator over that window;
if the frame allocator runs out during the mapping loop, it returns
`Err(MapToError::FrameAllocationFailed)` and the heap allocator is never
initialized. -/
theorem init_heap_correct (st : KernelState) (h0 : st.heapAlloc = none) :
    (st.frames.next + 25 ≤ (usable_frames st.frames.memory_map).length →
      ∃ st1, init_heap st = (st1, Except.ok ()) ∧
        (∀ a, HEAP_START ≤ a → a < HEAP_START + HEAP_SIZE →
          ∃ f, (⟨page_containing_address a, f, ⟨true, true⟩⟩ : Mapping)
            ∈ st1.mapper) ∧
        st1.heapAlloc = some (HEAP_START, HEAP_SIZE)) ∧
    ((usable_frames st.frames.memory_map).length < st.frames.next + 25 →
      ∃ st1, init_heap st
          = (st1, Except.error MapToError.FrameAllocationFailed) ∧
        st1.heapAlloc = none) := by
  have hlen : heapPages.length = 25 := by rw [heapPages_eq]; simp
  constructor
  · intro h
    obtain ⟨st1, h1, h2, _, h4⟩ := mapPagesLoop_ok heapPages st (by omega)
    refine ⟨{ st1 with heapAlloc := some (HEAP_START, HEAP_SIZE) }, ?_, ?_, rfl⟩
    · unfold init_heap
      rw [h1]
    · intro a ha1 ha2
      exact h4 _ (page_containing_mem_heapPages a ha1 ha2)
  · intro h
    obtain ⟨st1, h1, h2⟩ := mapPagesLoop_err heapPages st
      (by rw [heapPages_eq]; simp) (by omega)
    refine ⟨st1, ?_, by rw [h2, h0]⟩
    unfold init_heap
    rw [h1]

/-- Witness for C3: with 25 usable frames `init_heap` succeeds and
initializes the heap allocator; page coverage instantiated at `HEAP_START`. -/
theorem init_heap_correct_witness :
    ((⟨[], BootInfoFrameAllocator.init [⟨⟨0, 25⟩, MemoryRegionType.Usable⟩],
        none⟩ : KernelState).heapAlloc = none) ∧
    ((⟨[], BootInfoFrameAllocator.init [⟨⟨0, 25⟩, MemoryRegionType.Usable⟩],
        none⟩ : KernelState).frames.next + 25 ≤
      (usable_frames [⟨⟨0, 25⟩, MemoryRegionType.Usable⟩]).length) ∧
    ∃ st1, init_heap ⟨[], BootInfoFrameAllocator.init
        [⟨⟨0, 25⟩, MemoryRegionType.Usable⟩], none⟩ = (st1, Except.ok ()) ∧
      (∀ a, HEAP_START ≤ a → a < HEAP_START + HEAP_SIZE →
        ∃ f, (⟨page_containing_address a, f, ⟨true, true⟩⟩ : Mapping)
          ∈ st1.mapper) ∧
      st1.heapAlloc = some (HEAP_START, HEAP_SIZE) :=
  ⟨rfl, by decide,
    (init_heap_correct _ rfl).1 (by decide)⟩

-- Hardware interrupt handlers (src/interrupts.rs)

/-- `PIC_1_OFFSET` (src/interrupts.rs). -/
def PIC_1_OFFSET : Nat := 32

/-- `PIC_2_OFFSET` (src/interrupts.rs). -/
def PIC_2_OFFSET : Nat := PIC_1_OFFSET + 8

/-- `InterruptIndex` (src/interrupts.rs): `Timer = PIC_1_OFFSET`, `Keyboard`
is the next discriminant. -/
inductive InterruptIndex where
  | Timer
  | Keyboard
  deriving DecidableEq

/-- `InterruptIndex::as_u8`: the `repr(u8)` discriminant. -/
def InterruptIndex.as_u8 : InterruptIndex → Nat
  | .Timer => PIC_1_OFFSET
  | .Keyboard => PIC_1_OFFSET + 1

/-- Observable actions a handler performs, in order. -/
inductive HandlerEvent where
  | printEv (s : String)
  | portReadEv (port : Nat)
  | eoi (vector : Nat)
  deriving DecidableEq

/-- `pc_keyboard::DecodedKey`. -/
inductive DecodedKey where
  | unicode (c : Char)
  | rawKey (code : Nat)

/-- `timer_interrupt_handler` (src/interrupts.rs): print a dot, then notify
end of interrupt for the timer vector. -/
def timer_interrupt_handler : List HandlerEvent :=
  [HandlerEvent.printEv ".",
    HandlerEvent.eoi (InterruptIndex.as_u8 InterruptIndex.Timer)]

/-- `keyboard_interrupt_handler` (src/interrupts.rs): read the scancode from
port `0x60`, decode it through the keyboard driver (`add_byte` then
`process_keyevent`, both external `pc_keyboard` functions taken here as
parameters), print any decoded key, then notify end of interrupt for the
keyboard vector. -/
def keyboard_interrupt_handler (add_byte : Nat → Option (Option Nat))
    (process_keyevent : Nat → Option DecodedKey) (scancode : Nat) :
    List HandlerEvent :=
  [HandlerEvent.portReadEv 0x60] ++
  (match add_byte scancode with
    | some (some key_event) =>
        match process_keyevent key_event with
        | some (DecodedKey.unicode c) => [HandlerEvent.printEv (String.mk [c])]
        | some (DecodedKey.rawKey code) => [HandlerEvent.printEv (toString code)]
        | none => []
    | _ => []) ++
  [HandlerEvent.eoi (InterruptIndex.as_u8 InterruptIndex.Keyboard)]

/-- Keep only the end-of-interrupt acknowledgments of an event list. -/
def eoiEvents (evs : List HandlerEvent) : List HandlerEvent :=
  evs.filter (fun e => match e with
    | HandlerEvent.eoi _ => true
    | _ => false)

/-- C9: every invocation of the timer handler and of the keyboard handler
(whatever the scancode and however the external decoder behaves) sends
exactly one end-of-interrupt acknowledgment, addressed to that handler's own
vector number (32 for the timer, 33 for the keyboard). -/
theorem handlers_send_exactly_one_eoi :
    eoiEvents timer_interrupt_handler
      = [HandlerEvent.eoi (InterruptIndex.as_u8 InterruptIndex.Timer)] ∧
    InterruptIndex.as_u8 InterruptIndex.Timer = 32 ∧
    (∀ add_byte process_keyevent scancode,
      eoiEvents (keyboard_interrupt_handler add_byte process_keyevent scancode)
        = [HandlerEvent.eoi (InterruptIndex.as_u8 InterruptIndex.Keyboard)]) ∧
    InterruptIndex.as_u8 InterruptIndex.Keyboard = 33 := by
  refine ⟨rfl, rfl, ?_, rfl⟩
  intro add_byte process_keyevent scancode
  unfold keyboard_interrupt_handler eoiEvents
  rcases hab : add_byte scancode with _ | okey
  · rfl
  · rcases okey with _ | kev
    · rfl
    · rcases hpk : process_keyevent kev with _ | dk
      · simp only [hpk]
        rfl
      · rcases dk with c | code <;> simp only [hpk] <;> rfl

-- Bump allocator (spec section 4.3). `src/allocator.rs` declares
-- `pub mod bump`, but the module file itself is not in the source tree, so
-- the allocator is modelled from the specification text.

/-- Modelled from the spec: the Bump-Allocator State of the missing module
`allocator/bump.rs`: `{heap_start, heap_end, next_free (next),
live_allocation_count (allocations)}`. -/
@[ext]
structure BumpAllocator where
  heap_start : Nat
  heap_end : Nat
  next : Nat
  allocations : Nat
  deriving DecidableEq

/-- Modelled from the spec: bump-allocator initialization over the heap
window: `next_free` starts at `heap_start`, the live count at zero. -/
def BumpAllocator.init (heap_start heap_size : Nat) : BumpAllocator :=
  ⟨heap_start, heap_start + heap_size, heap_start, 0⟩

/-- Modelled from the spec: `alloc(size, align)` of the missing bump module:
round `next_free` up to `align` (with `align_up` from src/allocator.rs),
check against `heap_end`; on success advance `next_free` by `size`,
increment `live_allocation_count`, and return the pre-advance address; on
failure return out-of-memory leaving the state unchanged. -/
def BumpAllocator.alloc (st : BumpAllocator) (size align : Nat) :
    BumpAllocator × Option Nat :=
  let alloc_start := align_up st.next align
  let alloc_end := alloc_start + size
  if alloc_end > st.heap_end then (st, none)
  else
    ({ st with
        next := alloc_end
        allocations := st.allocations + 1 }, some alloc_start)

/-- Modelled from the spec: `dealloc` of the missing bump module: decrement
`live_allocation_count`; if it reaches zero, reset `next_free` to
`heap_start`. -/
def BumpAllocator.dealloc (st : BumpAllocator) : BumpAllocator :=
  let a := st.allocations - 1
  { st with
    allocations := a
    next := if a = 0 then st.heap_start else st.next }

/-- C6: the bump allocator's `alloc` rounds `next_free` up to `align`; if the
rounded address plus `size` exceeds `heap_end` it fails leaving the state
unchanged, otherwise it returns the rounded pre-advance address, advances
`next_free` past the block, and increments the live count; `dealloc`
decrements the live count and resets `next_free` to `heap_start` exactly
when the count reaches zero. -/
theorem bump_step_correct (st : BumpAllocator) (size align : Nat) :
    (align_up st.next align + size > st.heap_end →
      st.alloc size align = (st, none)) ∧
    (align_up st.next align + size ≤ st.heap_end →
      st.alloc size align =
        ({ st with
            next := align_up st.next align + size
            allocations := st.allocations + 1 },
          some (align_up st.next align))) ∧
    (∀ n, st.allocations = n + 1 →
      st.dealloc.allocations = n ∧
      st.dealloc.next = (if n = 0 then st.heap_start else st.next) ∧
      st.dealloc.heap_start = st.heap_start ∧
      st.dealloc.heap_end = st.heap_end) := by
  refine ⟨?_, ?_, ?_⟩
  · intro h
    unfold BumpAllocator.alloc
    simp only [if_pos h]
  · intro h
    unfold BumpAllocator.alloc
    simp only [gt_iff_lt, if_neg (by omega : ¬ st.heap_end < align_up st.next align + size)]
  · intro n hn
    unfold BumpAllocator.dealloc
    simp only [hn, Nat.add_sub_cancel]
    exact ⟨trivial, trivial, trivial, trivial⟩

/-- Witness for C6 at a concrete state: heap `[4096, 8192)`, `next = 4100`,
one live allocation; `alloc 16 8` succeeds at the rounded address 4104, and
`dealloc` resets `next` to 4096. -/
theorem bump_step_correct_witness :
    (align_up 4100 8 + 16 ≤ 8192) ∧
    ((⟨4096, 8192, 4100, 1⟩ : BumpAllocator).alloc 16 8 =
      (⟨4096, 8192, align_up 4100 8 + 16, 2⟩, some (align_up 4100 8))) ∧
    ((1:Nat) = 0 + 1) ∧
    ((⟨4096, 8192, 4100, 1⟩ : BumpAllocator).dealloc.allocations = 0 ∧
      (⟨4096, 8192, 4100, 1⟩ : BumpAllocator).dealloc.next =
        (if 0 = 0 then 4096 else 4100)) :=
  ⟨by decide, ((bump_step_correct ⟨4096, 8192, 4100, 1⟩ 16 8).2.1 (by decide)),
    rfl,
    ⟨((bump_step_correct ⟨4096, 8192, 4100, 1⟩ 16 8).2.2 0 rfl).1,
      ((bump_step_correct ⟨4096, 8192, 4100, 1⟩ 16 8).2.2 0 rfl).2.1⟩⟩

/-- Run a list of `(size, align)` allocation requests, all of which must
succeed; returns the final state and the returned addresses. -/
def BumpAllocator.allocAll (st : BumpAllocator) :
    List (Nat × Nat) → Option (BumpAllocator × List Nat)
  | [] => some (st, [])
  | (size, align) :: rest =>
    match st.alloc size align with
    | (_, none) => none
    | (st1, some a) =>
      match st1.allocAll rest with
      | none => none
      | some (st2, addrs) => some (st2, a :: addrs)

/-- Iterate `dealloc` `n` times. -/
def BumpAllocator.deallocN (st : BumpAllocator) : Nat → BumpAllocator
  | 0 => st
  | n + 1 => (st.dealloc).deallocN n

theorem allocAll_fields (L : List (Nat × Nat)) :
    ∀ st st1 : BumpAllocator, ∀ addrs,
    st.allocAll L = some (st1, addrs) →
    st1.heap_start = st.heap_start ∧ st1.heap_end = st.heap_end ∧
    st1.allocations = st.allocations + L.length := by
  induction L with
  | nil =>
    intro st st1 addrs h
    simp only [BumpAllocator.allocAll, Option.some_inj, Prod.mk.injEq] at h
    obtain ⟨rfl, _⟩ := h
    exact ⟨rfl, rfl, by simp⟩
  | cons p rest ih =>
    intro st st1 addrs h
    obtain ⟨size, align⟩ := p
    unfold BumpAllocator.allocAll at h
    unfold BumpAllocator.alloc at h
    by_cases hovf : align_up st.next align + size > st.heap_end
    · simp only [if_pos hovf] at h
      exact Option.noConfusion h
    · simp only [gt_iff_lt] at hovf
      simp only [if_neg hovf] at h
      rcases hrec : BumpAllocator.allocAll
          { st with
            next := align_up st.next align + size
            allocations := st.allocations + 1 } rest with _ | p2
      · rw [hrec] at h
        exact Option.noConfusion h
      · obtain ⟨st2, addrs2⟩ := p2
        rw [hrec] at h
        simp only [Option.some_inj, Prod.mk.injEq] at h
        obtain ⟨rfl, _⟩ := h
        obtain ⟨t1, t2, t3⟩ := ih _ _ _ hrec
        have t1' : st2.heap_start = st.heap_start := t1
        have t2' : st2.heap_end = st.heap_end := t2
        have t3' : st2.allocations = st.allocations + 1 + rest.length := t3
        refine ⟨t1', t2', ?_⟩
        simp only [List.length_cons]
        omega

theorem deallocN_drain (n : Nat) : ∀ st : BumpAllocator,
    st.allocations = n → 1 ≤ n →
    (st.deallocN n).allocations = 0 ∧
    (st.deallocN n).next = st.heap_start ∧
    (st.deallocN n).heap_start = st.heap_start ∧
    (st.deallocN n).heap_end = st.heap_end := by
  induction n with
  | zero =>
    intro st _ h1
    exact absurd h1 (by omega)
  | succ n ih =>
    intro st hs _
    have hstep : st.deallocN (n + 1) = (st.dealloc).deallocN n := rfl
    by_cases hn : n = 0
    · subst hn
      have hd : st.dealloc = { st with allocations := 0, next := st.heap_start } := by
        unfold BumpAllocator.dealloc
        simp [hs]
      rw [hstep, show (st.dealloc).deallocN 0 = st.dealloc from rfl, hd]
      exact ⟨rfl, rfl, rfl, rfl⟩
    · have hd1 : st.dealloc.allocations = n := by
        unfold BumpAllocator.dealloc
        simp [hs]
      have hd2 : st.dealloc.heap_start = st.heap_start := rfl
      have hd3 : st.dealloc.heap_end = st.heap_end := rfl
      have := ih st.dealloc hd1 (by omega)
      rw [hd2, hd3] at this
      exact this

/-- C5: after any sequence of `N` successful bump allocations from a fresh
heap followed by `N` deallocations (the live count returns to zero), the
allocator state equals the freshly initialized state, so the next allocation
of any size and alignment returns exactly what it would return on a fresh
heap. -/
theorem bump_full_drain_idempotent (heap_start heap_size : Nat)
    (L : List (Nat × Nat)) (st : BumpAllocator) (addrs : List Nat)
    (h : (BumpAllocator.init heap_start heap_size).allocAll L
      = some (st, addrs)) :
    st.deallocN L.length = BumpAllocator.init heap_start heap_size ∧
    ∀ size align,
      (st.deallocN L.length).alloc size align
        = (BumpAllocator.init heap_start heap_size).alloc size align := by
  have hfields := allocAll_fields L _ _ _ h
  rcases L with _ | ⟨p, rest⟩
  · simp only [BumpAllocator.allocAll, Option.some_inj] at h
    have hst : BumpAllocator.init heap_start heap_size = st := congrArg Prod.fst h
    subst hst
    exact ⟨rfl, fun _ _ => rfl⟩
  · have hlen : 1 ≤ (p :: rest).length := by simp
    have hdrain := deallocN_drain (p :: rest).length st
      (by
        have hx : st.allocations = 0 + (p :: rest).length := hfields.2.2
        omega)
      hlen
    have heq : st.deallocN (p :: rest).length
        = BumpAllocator.init heap_start heap_size := by
      ext
      · rw [hdrain.2.2.1]
        exact hfields.1
      · rw [hdrain.2.2.2]
        exact hfields.2.1
      · rw [hdrain.2.1]
        exact hfields.1
      · rw [hdrain.1]
        rfl
    exact ⟨heq, fun size align => by rw [heq]⟩

/-- Witness for C5: two allocations of 8 and 16 bytes on a fresh
`[4096, 8192)` heap, then two deallocations, restore the initial state. -/
theorem bump_full_drain_idempotent_witness :
    (BumpAllocator.init 4096 4096).allocAll [(8, 8), (16, 8)]
      = some (⟨4096, 8192, 4120, 2⟩, [4096, 4104]) ∧
    (⟨4096, 8192, 4120, 2⟩ : BumpAllocator).deallocN 2
      = BumpAllocator.init 4096 4096 :=
  ⟨by decide,
    (bump_full_drain_idempotent 4096 4096 [(8, 8), (16, 8)]
      ⟨4096, 8192, 4120, 2⟩ [4096, 4104] (by decide)).1⟩

-- Fixed-size-block allocator (spec section 4.4). `src/allocator.rs` declares
-- `pub mod fixed_size_block` and selects `FixedSizeBlockAllocator` as the
-- global allocator, but the module file itself is not in the source tree, so
-- the allocator is modelled from the specification text.

/-- Modelled from the spec: the power-of-two block size classes (8..2048) of
the missing module `allocator/fixed_size_block.rs`. -/
def BLOCK_SIZES : List Nat := [8, 16, 32, 64, 128, 256, 512, 1024, 2048]

/-- Position of the first list element satisfying the predicate
(Rust `Iterator::position`). -/
def listPosition (p : Nat → Bool) : List Nat → Option Nat
  | [] => none
  | c :: rest =>
    if p c then some 0 else (listPosition p rest).map (fun i => i + 1)

/-- Modelled from the spec: the size class of a request: the index of the
smallest class `≥ max(size, align)`, if any class is large enough. -/
def list_index (size align : Nat) : Option Nat :=
  listPosition (fun c => max size align ≤ c) BLOCK_SIZES

/-- Modelled from the spec: Fixed-Size-Block-Allocator State: the head of a
free list of block addresses per size class, plus the fallback bump region. -/
structure FixedSizeBlockAllocator where
  list_heads : Nat → List Nat
  fallback : BumpAllocator

/-- Modelled from the spec: initialization with empty free lists over the
heap window. -/
def FixedSizeBlockAllocator.init (heap_start heap_size : Nat) :
    FixedSizeBlockAllocator :=
  ⟨fun _ => [], BumpAllocator.init heap_start heap_size⟩

/-- Modelled from the spec: `alloc(size, align)` of the missing
fixed-size-block module: find the smallest class `≥ max(size, align)`; if
none is large enough, delegate to the fallback bump region with the request
as is; otherwise pop the class's free list if non-empty, else carve a fresh
block of exactly the class's size (and alignment) from the fallback region. -/
def FixedSizeBlockAllocator.alloc (st : FixedSizeBlockAllocator)
    (size align : Nat) : FixedSizeBlockAllocator × Option Nat :=
  match list_index size align with
  | some i =>
    match st.list_heads i with
    | b :: rest =>
        ({ st with
            list_heads := fun j => if j = i then rest else st.list_heads j },
          some b)
    | [] =>
        let c := BLOCK_SIZES.getD i 0
        let r := st.fallback.alloc c c
        ({ st with fallback := r.1 }, r.2)
  | none =>
    let r := st.fallback.alloc size align
    ({ st with fallback := r.1 }, r.2)

/-- Modelled from the spec: `dealloc(ptr, size, align)` of the missing
fixed-size-block module: recompute the class from `(size, align)` and push
the block onto that class's free list; for requests exceeding every class
the deallocation is a no-op. -/
def FixedSizeBlockAllocator.dealloc (st : FixedSizeBlockAllocator)
    (ptr size align : Nat) : FixedSizeBlockAllocator :=
  match list_index size align with
  | some i =>
      { st with
        list_heads := fun j =>
          if j = i then ptr :: st.list_heads j else st.list_heads j }
  | none => st

/-- One allocate-then-free iteration of a fixed request, as in the
`many_boxes` test (src/tests/heap_allocation.rs). -/
def allocFreeStep (size align : Nat) (st : FixedSizeBlockAllocator) :
    Option FixedSizeBlockAllocator :=
  match st.alloc size align with
  | (st1, some p) => some (st1.dealloc p size align)
  | (_, none) => none

/-- `k` allocate-then-free iterations. -/
def allocFreeIter (size align : Nat) (st : FixedSizeBlockAllocator) :
    Nat → Option FixedSizeBlockAllocator
  | 0 => some st
  | k + 1 =>
    match allocFreeStep size align st with
    | some st1 => allocFreeIter size align st1 k
    | none => none

theorem listPosition_spec (p : Nat → Bool) :
    ∀ (L : List Nat) i, listPosition p L = some i →
    i < L.length ∧ p (L.getD i 0) = true ∧
      ∀ j, j < i → p (L.getD j 0) = false := by
  intro L
  induction L with
  | nil =>
    intro i h
    exact Option.noConfusion h
  | cons c rest ih =>
    intro i h
    unfold listPosition at h
    by_cases hc : p c = true
    · rw [if_pos hc] at h
      obtain rfl : (0 : Nat) = i := Option.some_inj.mp h
      exact ⟨by simp, hc, by omega⟩
    · rw [if_neg hc] at h
      rw [Option.map_eq_some'] at h
      obtain ⟨i2, hi2, rfl⟩ := h
      obtain ⟨g1, g2, g3⟩ := ih i2 hi2
      refine ⟨by simp; omega, by simpa using g2, ?_⟩
      intro j hj
      cases j with
      | zero => simpa using Bool.eq_false_iff.mpr hc
      | succ j2 => simpa using g3 j2 (by omega)

theorem dealloc_pushes (st : FixedSizeBlockAllocator) (ptr size align i : Nat)
    (hcls : list_index size align = some i) :
    (st.dealloc ptr size align).list_heads i = ptr :: st.list_heads i ∧
    ∀ j, j ≠ i → (st.dealloc ptr size align).list_heads j = st.list_heads j := by
  unfold FixedSizeBlockAllocator.dealloc
  rw [hcls]
  constructor
  · simp
  · intro j hj
    simp [hj]

theorem alloc_pops (size align i : Nat)
    (hcls : list_index size align = some i)
    (st : FixedSizeBlockAllocator) (b : Nat) (rest : List Nat)
    (hne : st.list_heads i = b :: rest) :
    st.alloc size align =
      ({ st with
          list_heads := fun j => if j = i then rest else st.list_heads j },
        some b) := by
  unfold FixedSizeBlockAllocator.alloc
  rw [hcls]
  simp only [hne]

theorem allocFreeStep_fixed (size align i : Nat)
    (hcls : list_index size align = some i)
    (st : FixedSizeBlockAllocator) (b : Nat) (rest : List Nat)
    (hne : st.list_heads i = b :: rest) :
    allocFreeStep size align st = some st := by
  unfold allocFreeStep
  rw [alloc_pops size align i hcls st b rest hne]
  show some (FixedSizeBlockAllocator.dealloc _ b size align) = some st
  unfold FixedSizeBlockAllocator.dealloc
  rw [hcls]
  congr 1
  cases st with
  | mk heads fb =>
    simp only at hne ⊢
    congr 1
    funext j
    by_cases hj : j = i
    · subst hj
      simp [hne]
    · simp [hj]

theorem allocFreeStep_result_nonempty (size align i : Nat)
    (hcls : list_index size align = some i)
    (st0 st1 : FixedSizeBlockAllocator)
    (hstep : allocFreeStep size align st0 = some st1) :
    ∃ b rest, st1.list_heads i = b :: rest := by
  unfold allocFreeStep at hstep
  rcases halloc : st0.alloc size align with ⟨stA, r⟩
  rw [halloc] at hstep
  cases r with
  | none => exact Option.noConfusion hstep
  | some p =>
    obtain rfl : stA.dealloc p size align = st1 := Option.some_inj.mp hstep
    exact ⟨p, stA.list_heads i, (dealloc_pushes stA p size align i hcls).1⟩

/-- C4: `alloc` selects the smallest power-of-two size class at least
`max(size, align)`, `dealloc` returns the block to exactly that class's free
list, and consequently, for a fixed request that fits some class, once the
first allocate-then-free iteration has succeeded every subsequent iteration
succeeds with the very same state — the freed block is popped again instead
of consuming fresh heap, so arbitrarily many iterations never exhaust
memory. -/
theorem fixed_size_block_reuse (size align i : Nat)
    (hcls : list_index size align = some i)
    (st0 st1 : FixedSizeBlockAllocator)
    (hfirst : allocFreeStep size align st0 = some st1) :
    (i < BLOCK_SIZES.length ∧ max size align ≤ BLOCK_SIZES.getD i 0 ∧
      ∀ j, j < BLOCK_SIZES.length → max size align ≤ BLOCK_SIZES.getD j 0 →
        BLOCK_SIZES.getD i 0 ≤ BLOCK_SIZES.getD j 0) ∧
    (∀ st : FixedSizeBlockAllocator, ∀ ptr,
      (st.dealloc ptr size align).list_heads i = ptr :: st.list_heads i) ∧
    (∀ k, allocFreeIter size align st0 (k + 1) = some st1) := by
  obtain ⟨hlt, hsat, hbefore⟩ := listPosition_spec _ _ _ hcls
  refine ⟨⟨hlt, by simpa using hsat, ?_⟩, ?_, ?_⟩
  · intro j hj hreq
    by_cases hij : i ≤ j
    · have hsorted : ∀ a : Nat, a < BLOCK_SIZES.length →
          ∀ b : Nat, b < BLOCK_SIZES.length → a ≤ b →
          BLOCK_SIZES.getD a 0 ≤ BLOCK_SIZES.getD b 0 := by decide
      exact hsorted i hlt j hj hij
    · exfalso
      have := hbefore j (by omega)
      simp only [decide_eq_false_iff_not, Bool.eq_false_iff] at this
      exact this (by simpa using hreq)
  · intro st ptr
    exact (dealloc_pushes st ptr size align i hcls).1
  · have hfix : allocFreeStep size align st1 = some st1 := by
      obtain ⟨b, rest, hne⟩ :=
        allocFreeStep_result_nonempty size align i hcls st0 st1 hfirst
      exact allocFreeStep_fixed size align i hcls st1 b rest hne
    intro k
    show allocFreeIter size align st0 (k + 1) = some st1
    have hiter : ∀ n, allocFreeIter size align st1 n = some st1 := by
      intro n
      induction n with
      | zero => rfl
      | succ n ihn =>
        unfold allocFreeIter
        rw [hfix]
        exact ihn
    unfold allocFreeIter
    rw [hfirst]
    exact hiter k

/-- Witness for C4: request `(size, align) = (16, 8)` on a fresh allocator
over `[4096, 8192)`; the class is index 1 (16 bytes) and every iteration
after the first returns the same state. -/
theorem fixed_size_block_reuse_witness :
    list_index 16 8 = some 1 ∧
    ∃ st1, allocFreeStep 16 8 (FixedSizeBlockAllocator.init 4096 4096)
        = some st1 ∧
      ∀ k, allocFreeIter 16 8 (FixedSizeBlockAllocator.init 4096 4096) (k + 1)
        = some st1 :=
  ⟨by decide,
    ⟨⟨fun j => if j = 1 then [4096] else [], ⟨4096, 8192, 4112, 1⟩⟩, rfl,
      (fixed_size_block_reuse 16 8 1 (by decide)
        (FixedSizeBlockAllocator.init 4096 4096)
        ⟨fun j => if j = 1 then [4096] else [], ⟨4096, 8192, 4112, 1⟩⟩
        rfl).2.2⟩⟩

-- Traces of alloc/dealloc calls against either allocator (spec section 8,
-- first testable property)

/-- A record of one allocation: the returned address and the requested size
and alignment. -/
structure AllocRec where
  addr : Nat
  size : Nat
  align : Nat
  deriving DecidableEq

/-- One call of the global-allocator interface. -/
inductive HeapOp where
  | opAlloc (size align : Nat)
  | opFree (addr size align : Nat)
  deriving DecidableEq

/-- Alignments produced by `core::alloc::Layout` are powers of two
representable in `usize`. -/
def PowTwo (a : Nat) : Prop := ∃ k, k < 64 ∧ a = 2 ^ k

instance (a : Nat) : Decidable (PowTwo a) := by
  unfold PowTwo
  infer_instance

/-- Well-formedness of one call: allocations carry a `Layout`-valid
alignment. -/
def WFOp : HeapOp → Prop
  | .opAlloc _ align => PowTwo align
  | .opFree _ _ _ => True

instance (op : HeapOp) : Decidable (WFOp op) := by
  cases op <;> (unfold WFOp; infer_instance)

/-- Every allocation in the trace uses a power-of-two alignment. -/
def WFOps (ops : List HeapOp) : Prop := ∀ op ∈ ops, WFOp op

instance (ops : List HeapOp) : Decidable (WFOps ops) := by
  unfold WFOps
  infer_instance

/-- Disjointness of half-open byte ranges given as `(start, length)`. -/
def RD (a b : Nat × Nat) : Prop := a.1 + a.2 ≤ b.1 ∨ b.1 + b.2 ≤ a.1

/-- A returned record is non-null and satisfies its requested alignment. -/
def RetOk (e : AllocRec) : Prop := e.addr ≠ 0 ∧ e.align ∣ e.addr

/-- Run a trace against the bump allocator, tracking the live allocations
and every record ever returned; a `free` that does not match a currently
live allocation is rejected (it would be undefined behavior at the Rust
allocator interface). -/
def runBump : BumpAllocator → List AllocRec → List AllocRec → List HeapOp →
    Option (BumpAllocator × List AllocRec × List AllocRec)
  | st, live, rets, [] => some (st, live, rets)
  | st, live, rets, HeapOp.opAlloc size align :: ops =>
    match st.alloc size align with
    | (st1, some a) =>
        runBump st1 (⟨a, size, align⟩ :: live) (⟨a, size, align⟩ :: rets) ops
    | (st1, none) => runBump st1 live rets ops
  | st, live, rets, HeapOp.opFree addr size align :: ops =>
    if (⟨addr, size, align⟩ : AllocRec) ∈ live then
      runBump st.dealloc (live.erase ⟨addr, size, align⟩) rets ops
    else none

/-- Invariant tying a bump-allocator state to the set of live allocations. -/
structure BumpInv (st : BumpAllocator) (live : List AllocRec) : Prop where
  hs : st.heap_start = HEAP_START
  he : st.heap_end = HEAP_START + HEAP_SIZE
  lb : st.heap_start ≤ st.next
  ub : st.next ≤ st.heap_end
  count : st.allocations = live.length
  bounds : ∀ e ∈ live, st.heap_start ≤ e.addr ∧ e.addr + e.size ≤ st.next
  pw : live.Pairwise (fun e e2 => RD (e.addr, e.size) (e2.addr, e2.size))

theorem bump_alloc_none (st stA : BumpAllocator) (size align : Nat)
    (h : st.alloc size align = (stA, none)) : stA = st := by
  unfold BumpAllocator.alloc at h
  by_cases hc : align_up st.next align + size > st.heap_end
  · rw [if_pos hc] at h
    exact (congrArg Prod.fst h).symm
  · rw [if_neg hc] at h
    exact Option.noConfusion (congrArg Prod.snd h)

theorem bump_alloc_some (st stA : BumpAllocator) (size align a : Nat)
    (h : st.alloc size align = (stA, some a)) :
    a = align_up st.next align ∧ a + size ≤ st.heap_end ∧
    stA = { st with
      next := align_up st.next align + size
      allocations := st.allocations + 1 } := by
  unfold BumpAllocator.alloc at h
  by_cases hc : align_up st.next align + size > st.heap_end
  · rw [if_pos hc] at h
    exact Option.noConfusion (congrArg Prod.snd h)
  · rw [if_neg hc] at h
    have ha : a = align_up st.next align :=
      (Option.some_inj.mp (congrArg Prod.snd h)).symm
    exact ⟨ha, by omega, (congrArg Prod.fst h).symm⟩

theorem align_up_facts (addr align : Nat) (h : PowTwo align)
    (hb : addr ≤ HEAP_START + HEAP_SIZE) :
    addr ≤ align_up addr align ∧ align ∣ align_up addr align := by
  obtain ⟨k, hk, rfl⟩ := h
  have hpk : (2:Nat) ^ k ≤ 2 ^ 63 := Nat.pow_le_pow_right (by norm_num) (by omega)
  have hno : addr + 2 ^ k - 1 < USIZE := by
    unfold USIZE
    unfold HEAP_START HEAP_SIZE at hb
    have h63 : (2:Nat) ^ 63 < 2 ^ 64 := by norm_num
    omega
  have hc := align_up_correct addr (2 ^ k) ⟨k, hk, rfl⟩ hno
  exact ⟨hc.2.1, hc.1⟩

theorem HEAP_START_pos : 0 < HEAP_START := by
  unfold HEAP_START
  norm_num

theorem runBump_safety (ops : List HeapOp) :
    ∀ st live rets st1 live1 rets1,
    WFOps ops → BumpInv st live → (∀ e ∈ rets, RetOk e) →
    runBump st live rets ops = some (st1, live1, rets1) →
    BumpInv st1 live1 ∧ (∀ e ∈ rets1, RetOk e) := by
  induction ops with
  | nil =>
    intro st live rets st1 live1 rets1 _ hinv hrets hrun
    simp only [runBump, Option.some_inj, Prod.mk.injEq] at hrun
    obtain ⟨h1, h2, h3⟩ := hrun
    subst h1; subst h2; subst h3
    exact ⟨hinv, hrets⟩
  | cons op ops ih =>
    intro st live rets st1 live1 rets1 hwf hinv hrets hrun
    have hwfop : WFOp op := hwf op (List.mem_cons_self op ops)
    have hwfrest : WFOps ops := fun o ho => hwf o (List.mem_cons_of_mem _ ho)
    cases op with
    | opAlloc size align =>
      unfold runBump at hrun
      rcases halloc : st.alloc size align with ⟨stA, res⟩
      rw [halloc] at hrun
      cases res with
      | none =>
        obtain rfl := bump_alloc_none st stA size align halloc
        exact ih _ _ _ _ _ _ hwfrest hinv hrets hrun
      | some a =>
        obtain ⟨ha, hfit, hstA⟩ := bump_alloc_some st stA size align a halloc
        have hau := align_up_facts st.next align hwfop
          (by rw [← hinv.he]; exact hinv.ub)
        have hge : st.next ≤ a := by rw [ha]; exact hau.1
        have hdvd : align ∣ a := by rw [ha]; exact hau.2
        have hinvA : BumpInv stA (⟨a, size, align⟩ :: live) := by
          refine ⟨?_, ?_, ?_, ?_, ?_, ?_, ?_⟩
          · rw [hstA]; exact hinv.hs
          · rw [hstA]; exact hinv.he
          · rw [hstA]
            show st.heap_start ≤ align_up st.next align + size
            have := hinv.lb
            omega
          · rw [hstA]
            show align_up st.next align + size ≤ st.heap_end
            omega
          · rw [hstA]
            show st.allocations + 1 = (⟨a, size, align⟩ :: live).length
            rw [hinv.count]
            simp
          · intro e he
            rcases List.mem_cons.mp he with rfl | hel
            · rw [hstA]
              constructor
              · show st.heap_start ≤ a
                have := hinv.lb
                omega
              · show a + size ≤ align_up st.next align + size
                omega
            · have := hinv.bounds e hel
              rw [hstA]
              constructor
              · exact this.1
              · show e.addr + e.size ≤ align_up st.next align + size
                omega
          · refine List.Pairwise.cons ?_ hinv.pw
            intro e hel
            have := hinv.bounds e hel
            right
            show e.addr + e.size ≤ a
            omega
        have hretsA : ∀ e ∈ (⟨a, size, align⟩ :: rets), RetOk e := by
          intro e he
          rcases List.mem_cons.mp he with rfl | hel
          · constructor
            · show a ≠ 0
              have h1 := hinv.lb
              have h2 := hinv.hs
              have h3 := HEAP_START_pos
              omega
            · exact hdvd
          · exact hrets e hel
        exact ih _ _ _ _ _ _ hwfrest hinvA hretsA hrun
    | opFree addr size align =>
      unfold runBump at hrun
      by_cases hmem : (⟨addr, size, align⟩ : AllocRec) ∈ live
      · rw [if_pos hmem] at hrun
        have hlive1 : 1 ≤ live.length := List.length_pos.mpr
          (List.ne_nil_of_mem hmem)
        have hlenE : (live.erase ⟨addr, size, align⟩).length
            = live.length - 1 := List.length_erase_of_mem hmem
        have hinvD : BumpInv st.dealloc (live.erase ⟨addr, size, align⟩) := by
          have hcnt : st.dealloc.allocations = st.allocations - 1 := rfl
          by_cases hz : st.allocations - 1 = 0
          · have hnext : st.dealloc.next = st.heap_start := by
              unfold BumpAllocator.dealloc
              simp [hz]
            have hlen0 : (live.erase ⟨addr, size, align⟩).length = 0 := by
              rw [hlenE, ← hinv.count]
              omega
            have hnil : live.erase ⟨addr, size, align⟩ = [] :=
              List.length_eq_zero.mp hlen0
            refine ⟨hinv.hs, hinv.he, ?_, ?_, ?_, ?_, ?_⟩
            · show st.dealloc.heap_start ≤ st.dealloc.next
              rw [hnext]
              exact Nat.le_refl st.heap_start
            · show st.dealloc.next ≤ st.dealloc.heap_end
              rw [hnext]
              show st.heap_start ≤ st.heap_end
              have := hinv.lb
              have := hinv.ub
              omega
            · rw [hcnt, hlenE, hinv.count]
            · rw [hnil]
              intro e he
              exact absurd he (List.not_mem_nil e)
            · rw [hnil]
              exact List.Pairwise.nil
          · have hnext : st.dealloc.next = st.next := by
              unfold BumpAllocator.dealloc
              simp [hz]
            refine ⟨hinv.hs, hinv.he, ?_, ?_, ?_, ?_, ?_⟩
            · show st.dealloc.heap_start ≤ st.dealloc.next
              rw [hnext]
              exact hinv.lb
            · show st.dealloc.next ≤ st.dealloc.heap_end
              rw [hnext]
              exact hinv.ub
            · rw [hcnt, hlenE, hinv.count]
            · intro e he
              have := hinv.bounds e (List.mem_of_mem_erase he)
              rw [hnext]
              exact this
            · exact hinv.pw.sublist (List.erase_sublist _ _)
        exact ih _ _ _ _ _ _ hwfrest hinvD hrets hrun
      · rw [if_neg hmem] at hrun
        exact Option.noConfusion hrun

/-- The true usable capacity backing a request: the size of its class, or
the raw size for oversized requests served directly by the fallback
region. -/
def classSize (size align : Nat) : Nat :=
  match list_index size align with
  | some i => BLOCK_SIZES.getD i 0
  | none => size

/-- The byte range a live allocation actually occupies inside the
allocator (its backing block). -/
def blowRange (e : AllocRec) : Nat × Nat := (e.addr, classSize e.size e.align)

/-- Run a trace against the fixed-size-block allocator (same discipline as
`runBump`). -/
def runFSB : FixedSizeBlockAllocator → List AllocRec → List AllocRec →
    List HeapOp →
    Option (FixedSizeBlockAllocator × List AllocRec × List AllocRec)
  | st, live, rets, [] => some (st, live, rets)
  | st, live, rets, HeapOp.opAlloc size align :: ops =>
    match st.alloc size align with
    | (st1, some a) =>
        runFSB st1 (⟨a, size, align⟩ :: live) (⟨a, size, align⟩ :: rets) ops
    | (st1, none) => runFSB st1 live rets ops
  | st, live, rets, HeapOp.opFree addr size align :: ops =>
    if (⟨addr, size, align⟩ : AllocRec) ∈ live then
      runFSB (st.dealloc addr size align)
        (live.erase ⟨addr, size, align⟩) rets ops
    else none

/-- Invariant tying a fixed-size-block allocator state to the live set:
every free block and every live backing block lies inside the consumed part
of the heap window, free blocks are class-aligned, and all backing ranges
are pairwise disjoint. -/
structure FSBInv (st : FixedSizeBlockAllocator) (live : List AllocRec) :
    Prop where
  hs : st.fallback.heap_start = HEAP_START
  he : st.fallback.heap_end = HEAP_START + HEAP_SIZE
  lb : st.fallback.heap_start ≤ st.fallback.next
  ub : st.fallback.next ≤ st.fallback.heap_end
  free_bounds : ∀ i, i < BLOCK_SIZES.length → ∀ b ∈ st.list_heads i,
    HEAP_START ≤ b ∧ b + BLOCK_SIZES.getD i 0 ≤ st.fallback.next ∧
    BLOCK_SIZES.getD i 0 ∣ b
  live_bounds : ∀ e ∈ live, HEAP_START ≤ e.addr ∧
    e.addr + classSize e.size e.align ≤ st.fallback.next ∧
    ((list_index e.size e.align).isSome → classSize e.size e.align ∣ e.addr)
  free_pw : ∀ i, i < BLOCK_SIZES.length → (st.list_heads i).Pairwise
    (fun b b2 => RD (b, BLOCK_SIZES.getD i 0) (b2, BLOCK_SIZES.getD i 0))
  free_free : ∀ i, i < BLOCK_SIZES.length → ∀ j, j < BLOCK_SIZES.length →
    i ≠ j → ∀ b ∈ st.list_heads i, ∀ b2 ∈ st.list_heads j,
      RD (b, BLOCK_SIZES.getD i 0) (b2, BLOCK_SIZES.getD j 0)
  free_live : ∀ i, i < BLOCK_SIZES.length → ∀ b ∈ st.list_heads i,
    ∀ e ∈ live, RD (b, BLOCK_SIZES.getD i 0) (blowRange e)
  live_pw : live.Pairwise (fun e e2 => RD (blowRange e) (blowRange e2))

theorem RD_symm {a b : Nat × Nat} (h : RD a b) : RD b a := Or.symm h

theorem pow_two_dvd {a b : Nat} (ha : PowTwo a) (hb : PowTwo b) (h : a ≤ b) :
    a ∣ b := by
  obtain ⟨k, _, rfl⟩ := ha
  obtain ⟨l, _, rfl⟩ := hb
  exact pow_dvd_pow 2 ((Nat.pow_le_pow_iff_right (by norm_num)).mp h)

theorem BLOCK_SIZES_pow_two :
    ∀ i, i < BLOCK_SIZES.length → PowTwo (BLOCK_SIZES.getD i 0) := by decide

theorem classSize_of_some {size align i : Nat}
    (h : list_index size align = some i) :
    classSize size align = BLOCK_SIZES.getD i 0 := by
  unfold classSize
  rw [h]

theorem classSize_of_none {size align : Nat}
    (h : list_index size align = none) : classSize size align = size := by
  unfold classSize
  rw [h]

theorem list_index_bounds {size align i : Nat}
    (h : list_index size align = some i) :
    i < BLOCK_SIZES.length ∧ max size align ≤ BLOCK_SIZES.getD i 0 := by
  obtain ⟨h1, h2, _⟩ := listPosition_spec _ _ _ h
  exact ⟨h1, by simpa using h2⟩

theorem fsb_alloc_none (st stA : FixedSizeBlockAllocator) (size align : Nat)
    (h : st.alloc size align = (stA, none)) : stA = st := by
  unfold FixedSizeBlockAllocator.alloc at h
  rcases hcls : list_index size align with _ | i
  · rcases hfb : st.fallback.alloc size align with ⟨fb1, r⟩
    rw [hcls] at h
    simp only [hfb, Prod.mk.injEq] at h
    cases r with
    | none =>
      obtain rfl := bump_alloc_none _ _ _ _ hfb
      rw [← h.1]
    | some a => exact Option.noConfusion h.2
  · rcases hl : st.list_heads i with _ | ⟨b, rest⟩
    · rcases hfb : st.fallback.alloc (BLOCK_SIZES.getD i 0)
          (BLOCK_SIZES.getD i 0) with ⟨fb1, r⟩
      rw [hcls] at h
      simp only [hl, hfb, Prod.mk.injEq] at h
      cases r with
      | none =>
        obtain rfl := bump_alloc_none _ _ _ _ hfb
        rw [← h.1]
      | some a => exact Option.noConfusion h.2
    · rw [hcls] at h
      simp only [hl, Prod.mk.injEq] at h
      exact Option.noConfusion h.2

theorem fsb_alloc_some (st stA : FixedSizeBlockAllocator) (size align a : Nat)
    (h : st.alloc size align = (stA, some a)) :
    (∃ i rest, list_index size align = some i ∧ st.list_heads i = a :: rest ∧
      stA = { st with
        list_heads := fun j => if j = i then rest else st.list_heads j }) ∨
    (∃ i fb1, list_index size align = some i ∧ st.list_heads i = [] ∧
      st.fallback.alloc (BLOCK_SIZES.getD i 0) (BLOCK_SIZES.getD i 0)
        = (fb1, some a) ∧
      stA = { st with fallback := fb1 }) ∨
    (∃ fb1, list_index size align = none ∧
      st.fallback.alloc size align = (fb1, some a) ∧
      stA = { st with fallback := fb1 }) := by
  rcases hcls : list_index size align with _ | i
  · unfold FixedSizeBlockAllocator.alloc at h
    rcases hfb : st.fallback.alloc size align with ⟨fb1, r⟩
    rw [hcls] at h
    simp only [hfb, Prod.mk.injEq] at h
    cases r with
    | none => exact Option.noConfusion h.2
    | some a2 =>
      have ha : a2 = a := Option.some_inj.mp h.2
      subst ha
      exact Or.inr (Or.inr ⟨fb1, rfl, rfl, h.1.symm⟩)
  · unfold FixedSizeBlockAllocator.alloc at h
    rcases hl : st.list_heads i with _ | ⟨b, rest⟩
    · rcases hfb : st.fallback.alloc (BLOCK_SIZES.getD i 0)
          (BLOCK_SIZES.getD i 0) with ⟨fb1, r⟩
      rw [hcls] at h
      simp only [hl, hfb, Prod.mk.injEq] at h
      cases r with
      | none => exact Option.noConfusion h.2
      | some a2 =>
        have ha : a2 = a := Option.some_inj.mp h.2
        subst ha
        exact Or.inr (Or.inl ⟨i, fb1, rfl, hl, hfb, h.1.symm⟩)
    · rw [hcls] at h
      simp only [hl, Prod.mk.injEq] at h
      have hb : b = a := Option.some_inj.mp h.2
      subst hb
      exact Or.inl ⟨i, rest, rfl, hl, h.1.symm⟩

theorem fsb_dealloc_none (st : FixedSizeBlockAllocator)
    (ptr size align : Nat) (h : list_index size align = none) :
    st.dealloc ptr size align = st := by
  unfold FixedSizeBlockAllocator.dealloc
  rw [h]

theorem fsb_dealloc_fallback (st : FixedSizeBlockAllocator)
    (ptr size align : Nat) :
    (st.dealloc ptr size align).fallback = st.fallback := by
  unfold FixedSizeBlockAllocator.dealloc
  rcases h : list_index size align with _ | i <;> rfl

theorem fsb_dealloc_lists (st : FixedSizeBlockAllocator)
    (ptr size align i : Nat) (hcls : list_index size align = some i) :
    ∀ j b, b ∈ (st.dealloc ptr size align).list_heads j →
      (j = i ∧ b = ptr) ∨ b ∈ st.list_heads j := by
  intro j b hb
  unfold FixedSizeBlockAllocator.dealloc at hb
  rw [hcls] at hb
  simp only at hb
  by_cases hj : j = i
  · rw [if_pos hj] at hb
    rcases List.mem_cons.mp hb with rfl | hb2
    · exact Or.inl ⟨hj, rfl⟩
    · exact Or.inr hb2
  · rw [if_neg hj] at hb
    exact Or.inr hb

theorem runFSB_safety (ops : List HeapOp) :
    ∀ st live rets st1 live1 rets1,
    WFOps ops → FSBInv st live → (∀ e ∈ rets, RetOk e) →
    runFSB st live rets ops = some (st1, live1, rets1) →
    FSBInv st1 live1 ∧ (∀ e ∈ rets1, RetOk e) := by
  induction ops with
  | nil =>
    intro st live rets st1 live1 rets1 _ hinv hrets hrun
    simp only [runFSB, Option.some_inj, Prod.mk.injEq] at hrun
    obtain ⟨h1, h2, h3⟩ := hrun
    subst h1; subst h2; subst h3
    exact ⟨hinv, hrets⟩
  | cons op ops ih =>
    intro st live rets st1 live1 rets1 hwf hinv hrets hrun
    have hwfop : WFOp op := hwf op (List.mem_cons_self op ops)
    have hwfrest : WFOps ops := fun o ho => hwf o (List.mem_cons_of_mem _ ho)
    cases op with
    | opAlloc size align =>
      unfold runFSB at hrun
      rcases halloc : st.alloc size align with ⟨stA, res⟩
      rw [halloc] at hrun
      cases res with
      | none =>
        obtain rfl := fsb_alloc_none st stA size align halloc
        exact ih _ _ _ _ _ _ hwfrest hinv hrets hrun
      | some a =>
        have hpos := HEAP_START_pos
        rcases fsb_alloc_some st stA size align a halloc with
          ⟨i, rest, hcls, hl, hstA⟩ | ⟨i, fb1, hcls, hl, hfb, hstA⟩ |
          ⟨fb1, hcls, hfb, hstA⟩
        · -- pop the head of class i's free list
          have hib := list_index_bounds hcls
          have hcs := classSize_of_some hcls
          have hamem : a ∈ st.list_heads i := by
            rw [hl]
            exact List.mem_cons_self a rest
          have hbf := hinv.free_bounds i hib.1 a hamem
          have hfbA : stA.fallback = st.fallback := by rw [hstA]
          have hsub : ∀ j b, b ∈ stA.list_heads j → b ∈ st.list_heads j := by
            intro j b hb
            simp only [hstA] at hb
            by_cases hj : j = i
            · rw [if_pos hj] at hb
              rw [hj, hl]
              exact List.mem_cons_of_mem a hb
            · rw [if_neg hj] at hb
              exact hb
          have hresti : ∀ b, b ∈ stA.list_heads i → b ∈ rest := by
            intro b hb
            simp only [hstA] at hb
            simpa using hb
          have hpwi := hinv.free_pw i hib.1
          rw [hl] at hpwi
          obtain ⟨hpwhead, _⟩ := List.pairwise_cons.mp hpwi
          have hinvA : FSBInv stA (⟨a, size, align⟩ :: live) := by
            refine ⟨?_, ?_, ?_, ?_, ?_, ?_, ?_, ?_, ?_, ?_⟩
            · rw [hfbA]; exact hinv.hs
            · rw [hfbA]; exact hinv.he
            · rw [hfbA]; exact hinv.lb
            · rw [hfbA]; exact hinv.ub
            · intro j hj b hb
              rw [hfbA]
              exact hinv.free_bounds j hj b (hsub j b hb)
            · intro e he
              rw [hfbA]
              rcases List.mem_cons.mp he with rfl | he2
              · refine ⟨hbf.1, ?_, ?_⟩
                · show a + classSize size align ≤ st.fallback.next
                  rw [hcs]
                  exact hbf.2.1
                · intro _
                  show classSize size align ∣ a
                  rw [hcs]
                  exact hbf.2.2
              · exact hinv.live_bounds e he2
            · intro j hj
              by_cases hji : j = i
              · subst hji
                have : stA.list_heads j = rest := by
                  simp only [hstA]
                  simp
                rw [this]
                have := hinv.free_pw j hj
                rw [hl] at this
                exact (List.pairwise_cons.mp this).2
              · have : stA.list_heads j = st.list_heads j := by
                  simp only [hstA]
                  rw [if_neg hji]
                rw [this]
                exact hinv.free_pw j hj
            · intro i2 hi2 j2 hj2 hne b hb b2 hb2
              exact hinv.free_free i2 hi2 j2 hj2 hne b (hsub _ _ hb)
                b2 (hsub _ _ hb2)
            · intro j hj b hb e he
              rcases List.mem_cons.mp he with rfl | he2
              · show RD (b, BLOCK_SIZES.getD j 0) (a, classSize size align)
                rw [hcs]
                by_cases hji : j = i
                · subst hji
                  exact RD_symm (hpwhead b (hresti b hb))
                · exact hinv.free_free j hj i hib.1 hji b (hsub _ _ hb) a hamem
              · exact hinv.free_live j hj b (hsub _ _ hb) e he2
            · refine List.Pairwise.cons ?_ hinv.live_pw
              intro e he
              show RD (a, classSize size align) (blowRange e)
              rw [hcs]
              exact hinv.free_live i hib.1 a hamem e he
          have hretsA : ∀ e ∈ (⟨a, size, align⟩ :: rets), RetOk e := by
            intro e he
            rcases List.mem_cons.mp he with rfl | he2
            · refine ⟨?_, ?_⟩
              · show a ≠ 0
                have := hbf.1
                omega
              · show align ∣ a
                exact dvd_trans
                  (pow_two_dvd hwfop (BLOCK_SIZES_pow_two i hib.1)
                    (le_trans (le_max_right size align) hib.2))
                  hbf.2.2
            · exact hrets e he2
          exact ih _ _ _ _ _ _ hwfrest hinvA hretsA hrun
        · -- carve a fresh block of the class size from the fallback region
          have hib := list_index_bounds hcls
          have hcs := classSize_of_some hcls
          have hpow := BLOCK_SIZES_pow_two i hib.1
          obtain ⟨ha, hfit, hfb1⟩ := bump_alloc_some _ _ _ _ _ hfb
          have hnb : st.fallback.next ≤ HEAP_START + HEAP_SIZE := by
            rw [← hinv.he]
            exact hinv.ub
          have hau := align_up_facts st.fallback.next _ hpow hnb
          have hfbA : stA.fallback = fb1 := by rw [hstA]
          have hlsA : stA.list_heads = st.list_heads := by rw [hstA]
          have hnext1 : fb1.next = a + BLOCK_SIZES.getD i 0 := by
            rw [hfb1, ha]
          have hhs1 : fb1.heap_start = st.fallback.heap_start := by rw [hfb1]
          have hhe1 : fb1.heap_end = st.fallback.heap_end := by rw [hfb1]
          have hge : st.fallback.next ≤ a := by rw [ha]; exact hau.1
          have hCdvd : BLOCK_SIZES.getD i 0 ∣ a := by rw [ha]; exact hau.2
          have hmono : st.fallback.next ≤ fb1.next := by
            rw [hnext1]
            omega
          have hinvA : FSBInv stA (⟨a, size, align⟩ :: live) := by
            refine ⟨?_, ?_, ?_, ?_, ?_, ?_, ?_, ?_, ?_, ?_⟩
            · rw [hfbA, hhs1]; exact hinv.hs
            · rw [hfbA, hhe1]; exact hinv.he
            · rw [hfbA, hhs1, hnext1]
              have := hinv.lb
              omega
            · rw [hfbA, hhe1, hnext1]
              exact hfit
            · intro j hj b hb
              rw [hlsA] at hb
              obtain ⟨g1, g2, g3⟩ := hinv.free_bounds j hj b hb
              rw [hfbA]
              exact ⟨g1, by omega, g3⟩
            · intro e he
              rw [hfbA]
              rcases List.mem_cons.mp he with rfl | he2
              · refine ⟨?_, ?_, ?_⟩
                · show HEAP_START ≤ a
                  have := hinv.lb
                  have := hinv.hs
                  omega
                · show a + classSize size align ≤ fb1.next
                  rw [hcs, hnext1]
                · intro _
                  show classSize size align ∣ a
                  rw [hcs]
                  exact hCdvd
              · obtain ⟨g1, g2, g3⟩ := hinv.live_bounds e he2
                exact ⟨g1, by omega, g3⟩
            · intro j hj
              rw [hlsA]
              exact hinv.free_pw j hj
            · intro i2 hi2 j2 hj2 hne b hb b2 hb2
              rw [hlsA] at hb hb2
              exact hinv.free_free i2 hi2 j2 hj2 hne b hb b2 hb2
            · intro j hj b hb e he
              rw [hlsA] at hb
              rcases List.mem_cons.mp he with rfl | he2
              · left
                show b + BLOCK_SIZES.getD j 0 ≤ a
                have hbb := (hinv.free_bounds j hj b hb).2.1
                omega
              · exact hinv.free_live j hj b hb e he2
            · refine List.Pairwise.cons ?_ hinv.live_pw
              intro e he
              right
              have hbb := (hinv.live_bounds e he).2.1
              show e.addr + classSize e.size e.align ≤ a
              omega
          have hretsA : ∀ e ∈ (⟨a, size, align⟩ :: rets), RetOk e := by
            intro e he
            rcases List.mem_cons.mp he with rfl | he2
            · refine ⟨?_, ?_⟩
              · show a ≠ 0
                have := hinv.lb
                have := hinv.hs
                have := HEAP_START_pos
                omega
              · show align ∣ a
                exact dvd_trans
                  (pow_two_dvd hwfop hpow
                    (le_trans (le_max_right size align) hib.2))
                  hCdvd
            · exact hrets e he2
          exact ih _ _ _ _ _ _ hwfrest hinvA hretsA hrun
        · -- oversized request served directly by the fallback region
          have hcs := classSize_of_none hcls
          obtain ⟨ha, hfit, hfb1⟩ := bump_alloc_some _ _ _ _ _ hfb
          have hnb : st.fallback.next ≤ HEAP_START + HEAP_SIZE := by
            rw [← hinv.he]
            exact hinv.ub
          have hau := align_up_facts st.fallback.next align hwfop hnb
          have hfbA : stA.fallback = fb1 := by rw [hstA]
          have hlsA : stA.list_heads = st.list_heads := by rw [hstA]
          have hnext1 : fb1.next = a + size := by
            rw [hfb1, ha]
          have hhs1 : fb1.heap_start = st.fallback.heap_start := by rw [hfb1]
          have hhe1 : fb1.heap_end = st.fallback.heap_end := by rw [hfb1]
          have hge : st.fallback.next ≤ a := by rw [ha]; exact hau.1
          have hadvd : align ∣ a := by rw [ha]; exact hau.2
          have hinvA : FSBInv stA (⟨a, size, align⟩ :: live) := by
            refine ⟨?_, ?_, ?_, ?_, ?_, ?_, ?_, ?_, ?_, ?_⟩
            · rw [hfbA, hhs1]; exact hinv.hs
            · rw [hfbA, hhe1]; exact hinv.he
            · rw [hfbA, hhs1, hnext1]
              have := hinv.lb
              omega
            · rw [hfbA, hhe1, hnext1]
              exact hfit
            · intro j hj b hb
              rw [hlsA] at hb
              obtain ⟨g1, g2, g3⟩ := hinv.free_bounds j hj b hb
              rw [hfbA, hnext1]
              exact ⟨g1, by omega, g3⟩
            · intro e he
              rw [hfbA]
              rcases List.mem_cons.mp he with rfl | he2
              · refine ⟨?_, ?_, ?_⟩
                · show HEAP_START ≤ a
                  have := hinv.lb
                  have := hinv.hs
                  omega
                · show a + classSize size align ≤ fb1.next
                  rw [hcs, hnext1]
                · intro hfalse
                  rw [hcls] at hfalse
                  exact absurd hfalse (by simp)
              · obtain ⟨g1, g2, g3⟩ := hinv.live_bounds e he2
                rw [hnext1]
                exact ⟨g1, by omega, g3⟩
            · intro j hj
              rw [hlsA]
              exact hinv.free_pw j hj
            · intro i2 hi2 j2 hj2 hne b hb b2 hb2
              rw [hlsA] at hb hb2
              exact hinv.free_free i2 hi2 j2 hj2 hne b hb b2 hb2
            · intro j hj b hb e he
              rw [hlsA] at hb
              rcases List.mem_cons.mp he with rfl | he2
              · left
                show b + BLOCK_SIZES.getD j 0 ≤ a
                have hbb := (hinv.free_bounds j hj b hb).2.1
                omega
              · exact hinv.free_live j hj b hb e he2
            · refine List.Pairwise.cons ?_ hinv.live_pw
              intro e he
              right
              have hbb := (hinv.live_bounds e he).2.1
              show e.addr + classSize e.size e.align ≤ a
              omega
          have hretsA : ∀ e ∈ (⟨a, size, align⟩ :: rets), RetOk e := by
            intro e he
            rcases List.mem_cons.mp he with rfl | he2
            · refine ⟨?_, hadvd⟩
              show a ≠ 0
              have := hinv.lb
              have := hinv.hs
              have := HEAP_START_pos
              omega
            · exact hrets e he2
          exact ih _ _ _ _ _ _ hwfrest hinvA hretsA hrun
    | opFree addr size align =>
      unfold runFSB at hrun
      by_cases hmem : (⟨addr, size, align⟩ : AllocRec) ∈ live
      · rw [if_pos hmem] at hrun
        have hperm : List.Perm live ((⟨addr, size, align⟩ : AllocRec)
            :: live.erase ⟨addr, size, align⟩) := List.perm_cons_erase hmem
        have hpw2 := (hperm.pairwise_iff (fun h => RD_symm h)).mp hinv.live_pw
        obtain ⟨hhead, htail⟩ := List.pairwise_cons.mp hpw2
        have hlb := hinv.live_bounds ⟨addr, size, align⟩ hmem
        rcases hcls : list_index size align with _ | i
        · rw [fsb_dealloc_none st addr size align hcls] at hrun
          have hinvD : FSBInv st (live.erase ⟨addr, size, align⟩) := by
            refine ⟨hinv.hs, hinv.he, hinv.lb, hinv.ub, hinv.free_bounds,
              ?_, hinv.free_pw, hinv.free_free, ?_, htail⟩
            · intro e he
              exact hinv.live_bounds e (List.mem_of_mem_erase he)
            · intro j hj b hb e he
              exact hinv.free_live j hj b hb e (List.mem_of_mem_erase he)
          exact ih _ _ _ _ _ _ hwfrest hinvD hrets hrun
        · have hib := list_index_bounds hcls
          have hcs := classSize_of_some hcls
          have hdvd : BLOCK_SIZES.getD i 0 ∣ addr := by
            have := hlb.2.2 (by rw [hcls]; rfl)
            rwa [hcs] at this
          have hfbD := fsb_dealloc_fallback st addr size align
          have hpush := dealloc_pushes st addr size align i hcls
          have hmemor := fsb_dealloc_lists st addr size align i hcls
          have hinvD : FSBInv (st.dealloc addr size align)
              (live.erase ⟨addr, size, align⟩) := by
            refine ⟨?_, ?_, ?_, ?_, ?_, ?_, ?_, ?_, ?_, htail⟩
            · rw [hfbD]; exact hinv.hs
            · rw [hfbD]; exact hinv.he
            · rw [hfbD]; exact hinv.lb
            · rw [hfbD]; exact hinv.ub
            · intro j hj b hb
              rw [hfbD]
              rcases hmemor j b hb with ⟨hq1, hq2⟩ | hb2
              · rw [hq1, hq2]
                refine ⟨hlb.1, ?_, hdvd⟩
                rw [← hcs]
                exact hlb.2.1
              · exact hinv.free_bounds j hj b hb2
            · intro e he
              rw [hfbD]
              exact hinv.live_bounds e (List.mem_of_mem_erase he)
            · intro j hj
              by_cases hji : j = i
              · subst hji
                rw [hpush.1]
                refine List.Pairwise.cons ?_ (hinv.free_pw j hj)
                intro b hb
                have h5 : RD (b, BLOCK_SIZES.getD j 0) (addr, classSize size align) :=
                  hinv.free_live j hj b hb ⟨addr, size, align⟩ hmem
                rw [hcs] at h5
                exact RD_symm h5
              · rw [hpush.2 j hji]
                exact hinv.free_pw j hj
            · intro i2 hi2 j2 hj2 hne b hb b2 hb2
              rcases hmemor i2 b hb with ⟨hq1, hq2⟩ | hbo
              · rcases hmemor j2 b2 hb2 with ⟨hr1, hr2⟩ | hb2o
                · exact absurd (hq1.trans hr1.symm) hne
                · have h5 : RD (b2, BLOCK_SIZES.getD j2 0)
                      (addr, classSize size align) :=
                    hinv.free_live j2 hj2 b2 hb2o ⟨addr, size, align⟩ hmem
                  rw [hcs] at h5
                  rw [hq1, hq2]
                  exact RD_symm h5
              · rcases hmemor j2 b2 hb2 with ⟨hr1, hr2⟩ | hb2o
                · have h5 : RD (b, BLOCK_SIZES.getD i2 0)
                      (addr, classSize size align) :=
                    hinv.free_live i2 hi2 b hbo ⟨addr, size, align⟩ hmem
                  rw [hcs] at h5
                  rw [hr1, hr2]
                  exact h5
                · exact hinv.free_free i2 hi2 j2 hj2 hne b hbo b2 hb2o
            · intro j hj b hb e he
              rcases hmemor j b hb with ⟨hq1, hq2⟩ | hbo
              · have h5 : RD (addr, classSize size align) (blowRange e) :=
                  hhead e he
                rw [hcs] at h5
                rw [hq1, hq2]
                exact h5
              · exact hinv.free_live j hj b hbo e (List.mem_of_mem_erase he)
          exact ih _ _ _ _ _ _ hwfrest hinvD hrets hrun
      · rw [if_neg hmem] at hrun
        exact Option.noConfusion hrun

theorem size_le_classSize (size align : Nat) : size ≤ classSize size align := by
  rcases hcls : list_index size align with _ | i
  · rw [classSize_of_none hcls]
  · rw [classSize_of_some hcls]
    exact le_trans (le_max_left size align) (list_index_bounds hcls).2

theorem bumpInv_init : BumpInv (BumpAllocator.init HEAP_START HEAP_SIZE) [] := by
  refine ⟨rfl, rfl, Nat.le_refl _, ?_, rfl, ?_, List.Pairwise.nil⟩
  · show HEAP_START ≤ HEAP_START + HEAP_SIZE
    omega
  · intro e he
    exact absurd he (List.not_mem_nil e)

theorem fsbInv_init :
    FSBInv (FixedSizeBlockAllocator.init HEAP_START HEAP_SIZE) [] := by
  refine ⟨rfl, rfl, Nat.le_refl _, ?_, ?_, ?_, ?_, ?_, ?_, List.Pairwise.nil⟩
  · show HEAP_START ≤ HEAP_START + HEAP_SIZE
    omega
  · intro i _ b hb
    exact absurd hb (List.not_mem_nil b)
  · intro e he
    exact absurd he (List.not_mem_nil e)
  · intro i _
    exact List.Pairwise.nil
  · intro i _ j _ _ b hb
    exact absurd hb (List.not_mem_nil b)
  · intro i _ b hb
    exact absurd hb (List.not_mem_nil b)

/-- C7: for every well-formed sequence of `alloc`/`dealloc` calls run
against either allocator, freshly initialized over the 100-KiB heap window,
every address returned by `alloc` is non-null and satisfies the requested
alignment, and the byte ranges of the currently-live allocations are
pairwise disjoint. -/
theorem heap_alloc_safety (ops : List HeapOp) (hwf : WFOps ops) :
    (∀ stB liveB retsB,
      runBump (BumpAllocator.init HEAP_START HEAP_SIZE) [] [] ops
        = some (stB, liveB, retsB) →
      (∀ e ∈ retsB, e.addr ≠ 0 ∧ e.align ∣ e.addr) ∧
      liveB.Pairwise (fun e e2 => RD (e.addr, e.size) (e2.addr, e2.size))) ∧
    (∀ stF liveF retsF,
      runFSB (FixedSizeBlockAllocator.init HEAP_START HEAP_SIZE) [] [] ops
        = some (stF, liveF, retsF) →
      (∀ e ∈ retsF, e.addr ≠ 0 ∧ e.align ∣ e.addr) ∧
      liveF.Pairwise (fun e e2 => RD (e.addr, e.size) (e2.addr, e2.size))) := by
  constructor
  · intro stB liveB retsB hrun
    obtain ⟨hinv, hrets⟩ := runBump_safety ops _ _ _ _ _ _ hwf bumpInv_init
      (fun e he => absurd he (List.not_mem_nil e)) hrun
    exact ⟨hrets, hinv.pw⟩
  · intro stF liveF retsF hrun
    obtain ⟨hinv, hrets⟩ := runFSB_safety ops _ _ _ _ _ _ hwf fsbInv_init
      (fun e he => absurd he (List.not_mem_nil e)) hrun
    refine ⟨hrets, ?_⟩
    refine hinv.live_pw.imp ?_
    intro e e2 h
    have h1 := size_le_classSize e.size e.align
    have h2 := size_le_classSize e2.size e2.align
    simp only [RD, blowRange] at h ⊢
    omega

/-- Witness for C7 on the one-allocation trace `[alloc 16 8]` against both
allocators. -/
theorem heap_alloc_safety_witness :
    WFOps [HeapOp.opAlloc 16 8] ∧
    runBump (BumpAllocator.init HEAP_START HEAP_SIZE) [] []
        [HeapOp.opAlloc 16 8]
      = some (⟨HEAP_START, HEAP_START + HEAP_SIZE, HEAP_START + 16, 1⟩,
          [⟨HEAP_START, 16, 8⟩], [⟨HEAP_START, 16, 8⟩]) ∧
    (∀ e ∈ [(⟨HEAP_START, 16, 8⟩ : AllocRec)],
      e.addr ≠ 0 ∧ e.align ∣ e.addr) ∧
    ∃ stF liveF retsF,
      runFSB (FixedSizeBlockAllocator.init HEAP_START HEAP_SIZE) [] []
          [HeapOp.opAlloc 16 8]
        = some (stF, liveF, retsF) ∧
      ∀ e ∈ retsF, e.addr ≠ 0 ∧ e.align ∣ e.addr :=
  ⟨by decide, by decide,
    ((heap_alloc_safety [HeapOp.opAlloc 16 8] (by decide)).1
      ⟨HEAP_START, HEAP_START + HEAP_SIZE, HEAP_START + 16, 1⟩
      [⟨HEAP_START, 16, 8⟩] [⟨HEAP_START, 16, 8⟩] (by decide)).1,
    ⟨⟨fun _ => [], ⟨HEAP_START, HEAP_START + HEAP_SIZE, HEAP_START + 16, 1⟩⟩,
      [⟨HEAP_START, 16, 8⟩], [⟨HEAP_START, 16, 8⟩], rfl,
      ((heap_alloc_safety [HeapOp.opAlloc 16 8] (by decide)).2
        ⟨fun _ => [], ⟨HEAP_START, HEAP_START + HEAP_SIZE, HEAP_START + 16, 1⟩⟩
        [⟨HEAP_START, 16, 8⟩] [⟨HEAP_START, 16, 8⟩] rfl).1⟩⟩

end MiniOS
